import Mathlib

/-!
Verification of the CSV standardisation and best/worst summarisation pipeline
of `evaluation/run_all_metrics.py`.

The Python functions `find_column`, `resolve_path`, `standardise_model_csv`,
`summarize_best_worst` and the per-model cultural loop of `main` are shallowly
embedded below.  Strings are manipulated through their character lists
(`String.data`) so that every definition evaluates inside the kernel; the
ASCII-relevant behaviour of `str.lower`, `str.strip` and `str.split` is
modelled (all column candidates in the source are ASCII).  pandas cells are
modelled as `Option String` (for the raw path CSVs, whose cells are strings
or NaN) and as the `Value` type (for the metric tables, whose cells are
strings, floats — modelled as rationals — or NaN).  The filesystem is
modelled symlink-free: a directory is its list of path components.
-/

/-- ASCII lowering of one character; models the effect of Python `str.lower`
on the ASCII headers used by the pipeline. -/
def lowerChar (c : Char) : Char :=
  if 'A' ≤ c ∧ c ≤ 'Z' then Char.ofNat (c.toNat + 32) else c

/-- Whitespace recognised by Python `str.strip`. -/
def isSpaceChar (c : Char) : Bool :=
  c = ' ' || c = '\t' || c = '\n' || c = '\r'

/-- Strip leading and trailing whitespace from a character list. -/
def trimL (l : List Char) : List Char :=
  ((l.dropWhile isSpaceChar).reverse.dropWhile isSpaceChar).reverse

/-- Python `str.strip`. -/
def pyStrip (s : String) : String :=
  String.mk (trimL s.data)

/-- Split a character list on a separator, Python `str.split(sep)` style:
adjacent separators yield empty segments. -/
def splitChar (sep : Char) (l : List Char) : List (List Char) :=
  l.foldr (fun c acc =>
    if c = sep then [] :: acc
    else match acc with
      | g :: gs => (c :: g) :: gs
      | [] => [[c]]) [[]]

/-- The key under which a header or candidate is matched:
`name.lower().strip()` in the source. -/
def foldName (s : String) : String :=
  String.mk (trimL (s.data.map lowerChar))

/-- The dict comprehension `{col.lower().strip(): col for col in columns}`
of `find_column`, applied to one key: later columns overwrite earlier ones
that fold to the same key. -/
def dictLookup (columns : List String) (key : String) : Option String :=
  columns.foldl (fun acc col => if foldName col = key then some col else acc) none

/-- `find_column(columns, *candidates)` from `run_all_metrics.py`:
try each candidate in order against the folded-header dictionary. -/
def find_column (columns : List String) (candidates : List String) : Option String :=
  candidates.findSome? (fun cand => dictLookup columns (foldName cand))

/-- Modelled from the spec: "return the first header that case-insensitively
equals any candidate" — the first header, in header order, whose folded form
equals the folded form of some candidate.  Used to compare the spec's
contract with `find_column`. -/
def specFirstHeader (columns : List String) (candidates : List String) : Option String :=
  columns.find? (fun h => candidates.any (fun c => foldName h = foldName c))

/-- Path-component decomposition performed by `pathlib.PurePosixPath`:
splitting on `/` discards empty segments and `.` segments, keeps `..`. -/
def parseComponents (s : String) : List String :=
  ((splitChar '/' s.data).map String.mk).filter (fun c => c ≠ "" && c ≠ ".")

/-- `PurePosixPath.is_absolute` on POSIX: the string starts with `/`. -/
def isAbsStr (s : String) : Bool :=
  match s.data with
  | '/' :: _ => true
  | _ => false

/-- Render an absolute path from its components, as `str(Path(...))` does. -/
def renderAbs (cs : List String) : String :=
  "/" ++ String.intercalate "/" cs

/-- Lexical `..` elimination performed by `Path.resolve` in a symlink-free
filesystem: `..` discards the previous component; at the root it is a no-op. -/
def resolveDots (cs : List String) : List String :=
  cs.foldl (fun acc c => if c = ".." then acc.dropLast else acc ++ [c]) []

/-- `resolve_path(base_dir, value)` from `run_all_metrics.py`.  The base
directory is given by its (absolute, canonical) components.  The source
strips the value, returns `""` for an empty result, calls
`(base_dir / value).resolve()` for a relative value, and returns
`str(Path(value))` — with no `resolve()` call — for an absolute value. -/
def resolve_path (base : List String) (value : String) : String :=
  let v := pyStrip value
  if v = "" then ""
  else if isAbsStr v then renderAbs (parseComponents v)
  else renderAbs (resolveDots (base ++ parseComponents v))

/-- Modelled from the spec: "if the value denotes a relative path, resolve it
against the base directory and canonicalize (resolve `..`/symlinks) to an
absolute path string; if already absolute, canonicalize" — both branches
canonicalised, in the symlink-free filesystem model. -/
def spec_resolve_path (base : List String) (value : String) : String :=
  let v := pyStrip value
  if v = "" then ""
  else if isAbsStr v then renderAbs (resolveDots (parseComponents v))
  else renderAbs (resolveDots (base ++ parseComponents v))

/-- A raw per-model CSV as loaded by `pd.read_csv`: header names plus rows of
cells, where a cell is a string or NaN (`none`). -/
structure RawTable where
  columns : List String
  rows : List (List (Option String))
deriving Repr, DecidableEq

/-- Index of a column name in a header list. -/
def colIdxOf (cols : List String) (c : String) : Option Nat :=
  cols.findIdx? (fun h => h == c)

/-- `row[c]` for a raw row: the cell in the position of column `c`. -/
def cellOfRow (cols : List String) (row : List (Option String)) (c : String) : Option String :=
  match colIdxOf cols c with
  | some j => row.getD j none
  | none => none

/-- Python `str(cell)` on a raw cell: NaN prints as `"nan"`. -/
def pyStrCell : Option String → String
  | none => "nan"
  | some s => s

/-- Candidate spellings for the prompt column in `standardise_model_csv`. -/
def promptCandidates : List String := ["prompt", "t2i prompt", "text", "text_prompt"]

/-- Candidate spellings for the editing-prompt column. -/
def editingCandidates : List String := ["editing_prompt", "i2i prompt", "instruction"]

/-- Candidate spellings for the step-0 column. -/
def step0Candidates : List String := ["step0", "step0_path", "base", "base_path"]

/-- Candidate spellings for step `i ≥ 1` columns. -/
def stepCandidates (i : Nat) : List String :=
  [s!"step{i}", s!"step{i}_path", s!"edit_{i}", s!"edit_{i}_path", s!"edit{i}", s!"edit{i}_path"]

/-- The `step_columns` dictionary of `standardise_model_csv`, as a function:
which source column (if any) provides step `idx`.  The source populates
index 0 from `step0Candidates` and indices 1 through 9 from `stepCandidates`. -/
def stepColumnsOf (cols : List String) (idx : Nat) : Option String :=
  if idx = 0 then find_column cols step0Candidates
  else if idx ≤ 9 then find_column cols (stepCandidates idx)
  else none

/-- The list of detected step indices (the keys of `step_columns`). -/
def stepIdxs (cols : List String) : List Nat :=
  (List.range 10).filter (fun i => (stepColumnsOf cols i).isSome)

/-- `max(step_columns)`: the largest detected step index, if any. -/
def maxStepOf (cols : List String) : Option Nat :=
  match stepIdxs cols with
  | [] => none
  | i :: is => some (is.foldl max i)

/-- Canonical field name `f"step{i}_path"`. -/
def stepFieldName (i : Nat) : String := s!"step{i}_path"

/-- One canonical output row of `standardise_model_csv`, in field order
`prompt, editing_prompt, step0_path, ..., step{maxStep}_path`. -/
def standardRecord (base : List String) (cols : List String) (pcol : String)
    (ecol : Option String) (maxStep : Nat) (row : List (Option String)) : List String :=
  pyStrip (pyStrCell (cellOfRow cols row pcol)) ::
  (match ecol with
    | some e =>
      match cellOfRow cols row e with
      | some s => pyStrip s
      | none => ""
    | none => "") ::
  (List.range (maxStep + 1)).map (fun idx =>
    match stepColumnsOf cols idx with
    | some c =>
      match cellOfRow cols row c with
      | some s => resolve_path base s
      | none => ""
    | none => "")

/-- The canonical CSV written by `standardise_model_csv`. -/
structure CanonCsv where
  header : List String
  rows : List (List String)
deriving Repr, DecidableEq

/-- The exceptions `standardise_model_csv` can raise. -/
inductive StdError where
  | missingFile
  | noRows
  | noPromptColumn
  | noStepColumns
deriving Repr, DecidableEq

/-- `standardise_model_csv(model_name, model_dir, output_csv)`:
`base` is the model directory (absolute, canonical components),
`sourceExists` models the `source_csv.exists()` check and `df` the loaded
CSV.  Returns the written canonical CSV together with the returned
`max_step`, or the exception raised. -/
def standardise_model_csv (base : List String) (sourceExists : Bool)
    (df : RawTable) : Except StdError (CanonCsv × Nat) :=
  if !sourceExists then .error .missingFile
  else if df.rows.isEmpty then .error .noRows
  else
    match find_column df.columns promptCandidates with
    | none => .error .noPromptColumn
    | some pcol =>
      let ecol := find_column df.columns editingCandidates
      match maxStepOf df.columns with
      | none => .error .noStepColumns
      | some m =>
        .ok (⟨"prompt" :: "editing_prompt" :: (List.range (m + 1)).map stepFieldName,
              df.rows.map (standardRecord base df.columns pcol ecol m)⟩, m)

/-- A pandas cell of a metric table: NaN, a string, or a float (modelled as a
rational). -/
inductive Value where
  | na : Value
  | str : String → Value
  | num : ℚ → Value
deriving Repr, DecidableEq

/-- A detailed/summary metric table as loaded by `pd.read_csv`. -/
structure MetricTable where
  columns : List String
  rows : List (List Value)
deriving Repr, DecidableEq

/-- Numeric value of one digit character. -/
def digitVal (c : Char) : Option Nat :=
  if c.isDigit then some (c.toNat - '0'.toNat) else none

/-- Value of a non-empty all-digit character list. -/
def digitsVal (cs : List Char) : Option Nat :=
  cs.foldl (fun acc c =>
    match acc, digitVal c with
    | some n, some d => some (n * 10 + d)
    | _, _ => none) (some 0)

/-- Parse a decimal literal (optional sign, optional fractional part) as a
rational.  Models the numeric strings `pd.to_numeric` accepts; exponent and
infinity literals are not modelled. -/
def parseRat (s : String) : Option ℚ :=
  let t := trimL s.data
  let (sign, body) : ℚ × List Char :=
    match t with
    | '-' :: rest => (-1, rest)
    | '+' :: rest => (1, rest)
    | _ => (1, t)
  match splitChar '.' body with
  | [intPart] =>
    if intPart.isEmpty then none
    else (digitsVal intPart).map (fun n => sign * n)
  | [intPart, fracPart] =>
    if intPart.isEmpty && fracPart.isEmpty then none
    else
      match digitsVal intPart, digitsVal fracPart with
      | some a, some b => some (sign * ((a : ℚ) + (b : ℚ) / ((10 : ℚ) ^ fracPart.length)))
      | _, _ => none
  | _ => none

/-- `pd.to_numeric(cell, errors='coerce')`: numbers pass through, numeric
strings parse, everything else becomes NaN. -/
def to_numeric : Value → Value
  | .num q => .num q
  | .str s =>
    match parseRat s with
    | some q => .num q
    | none => .na
  | .na => .na

/-- The columns coerced to numeric by `summarize_best_worst`
(`numeric_cols` plus `num_questions`). -/
def numeric_cols : List String := ["accuracy", "precision", "recall", "f1"]

/-- Numeric coercion step of `summarize_best_worst`: the four metric columns
and `num_questions` are passed through `pd.to_numeric`; when `num_questions`
is absent, `df['num_questions'] = pd.to_numeric(df.get('num_questions'),
errors='coerce')` creates an all-NaN column.  Rows are rectangularised to the
column count, as in a pandas frame. -/
def coerceNumeric (df : MetricTable) : MetricTable :=
  let hasNq := "num_questions" ∈ df.columns
  { columns := if hasNq then df.columns else df.columns ++ ["num_questions"]
    rows := df.rows.map (fun row =>
      let r := (List.range df.columns.length).map (fun j =>
        if df.columns.getD j "" ∈ numeric_cols ++ ["num_questions"]
        then to_numeric (row.getD j .na) else row.getD j .na)
      if hasNq then r else r ++ [.na]) }

/-- `row[c]` on a metric table, by row index. -/
def getCell (df : MetricTable) (i : Nat) (c : String) : Value :=
  match colIdxOf df.columns c with
  | some j => (df.rows.getD i []).getD j .na
  | none => .na

/-- The `group_id` cell of row `i`. -/
def rowGroup (df : MetricTable) (i : Nat) : Value :=
  getCell df i "group_id"

/-- The numeric content of a cell (`none` for NaN and strings). -/
def asNum : Value → Option ℚ
  | .num q => some q
  | _ => none

/-- The numeric `f1` of row `i`, if any. -/
def f1Num (df : MetricTable) (i : Nat) : Option ℚ :=
  asNum (getCell df i "f1")

/-- The row indices of group `g`, in input order — pandas `groupby` groups. -/
def groupRowIdxs (df : MetricTable) (g : Value) : List Nat :=
  (List.range df.rows.length).filter (fun i => rowGroup df i = g)

/-- The `(index, f1)` pairs of group `g` with non-missing f1, in input order —
the values `idxmax`/`idxmin` select over (NaN entries are skipped). -/
def f1Pairs (df : MetricTable) (g : Value) : List (Nat × ℚ) :=
  (groupRowIdxs df g).filterMap (fun i => (f1Num df i).map (fun q => (i, q)))

/-- Fold keeping the first pair with the maximal second component
(a later pair replaces the current one only when strictly greater), the
tie-breaking used by pandas `idxmax`. -/
def pickMax (p : Nat × ℚ) (ps : List (Nat × ℚ)) : Nat × ℚ :=
  ps.foldl (fun best x => if best.2 < x.2 then x else best) p

/-- Fold keeping the first pair with the minimal second component. -/
def pickMin (p : Nat × ℚ) (ps : List (Nat × ℚ)) : Nat × ℚ :=
  ps.foldl (fun best x => if x.2 < best.2 then x else best) p

/-- `df.groupby('group_id')['f1'].idxmax()` for one group: the first row
index attaining the maximal non-NaN f1, or none when every f1 of the group
is NaN (such entries are then removed by `.dropna()`). -/
def idxmaxF1 (df : MetricTable) (g : Value) : Option Nat :=
  match f1Pairs df g with
  | [] => none
  | p :: ps => some (pickMax p ps).1

/-- `idxmin` counterpart of `idxmaxF1`. -/
def idxminF1 (df : MetricTable) (g : Value) : Option Nat :=
  match f1Pairs df g with
  | [] => none
  | p :: ps => some (pickMin p ps).1

/-- First-occurrence deduplication. -/
def dedupFirst (l : List Value) : List Value :=
  l.foldl (fun acc v => if v ∈ acc then acc else acc ++ [v]) []

/-- The group keys of the table: distinct non-NaN `group_id` values
(pandas `groupby` drops NaN keys). -/
def groupKeysOf (df : MetricTable) : List Value :=
  dedupFirst (((List.range df.rows.length).map (rowGroup df)).filter
    (fun v => v ≠ Value.na))

/-- One merged output row of the best/worst CSV: the group key, the full
best row (fields written with prefix `best_`) and the full worst row
(fields written with prefix `worst_`). -/
structure BWRecord where
  group_id : Value
  best : List Value
  worst : List Value
deriving Repr, DecidableEq

/-- The best/worst record of one group, when the group has a usable f1:
`df.loc[best_idx]` and `df.loc[worst_idx]` merged on the group key (the
outer merge of the source pairs the unique best and worst rows of each key). -/
def bwRecordFor (cf : MetricTable) (g : Value) : Option BWRecord :=
  match idxmaxF1 cf g, idxminF1 cf g with
  | some bi, some wi => some ⟨g, cf.rows.getD bi [], cf.rows.getD wi []⟩
  | _, _ => none

/-- `summarize_best_worst(summary_csv, output_csv)` from `run_all_metrics.py`
on the loaded table: `.ok none` models the silent early return (no output
file written), `.error c` models the `KeyError` raised by `df[c]` when a
coerced column is missing, and `.ok (some recs)` the written CSV rows. -/
def summarize_best_worst (df : MetricTable) : Except String (Option (List BWRecord)) :=
  if df.rows = [] ∨ "group_id" ∉ df.columns then .ok none
  else
    match numeric_cols.find? (fun c => decide (c ∉ df.columns)) with
    | some c => .error c
    | none =>
      let cf := coerceNumeric df
      .ok (some ((groupKeysOf cf).filterMap (bwRecordFor cf)))

/-- What the cultural loop of `main` did for one model. -/
structure CulturalOutcome where
  ranCultural : Bool
  ranSummarize : Bool
deriving Repr, DecidableEq

/-- The per-model body of the cultural loop in `main` (with `--skip-cultural`
not set): when the summary CSV for the run's timestamp already exists and
`--force` is not set, the loop `continue`s — running neither the cultural
scorer nor `summarize_best_worst`; otherwise it runs both. -/
def cultural_model_step (summaryExists force : Bool) : CulturalOutcome :=
  if summaryExists && !force then ⟨false, false⟩ else ⟨true, true⟩

/-- Row `i` is the first row of group `g` attaining the group's maximal
non-missing f1 value `q`. -/
def IsFirstMax (df : MetricTable) (g : Value) (i : Nat) (q : ℚ) : Prop :=
  i < df.rows.length ∧ rowGroup df i = g ∧ f1Num df i = some q
  ∧ (∀ j p, j < df.rows.length → rowGroup df j = g → f1Num df j = some p → p ≤ q)
  ∧ (∀ j p, j < i → rowGroup df j = g → f1Num df j = some p → p < q)

/-- Row `i` is the first row of group `g` attaining the group's minimal
non-missing f1 value `q`. -/
def IsFirstMin (df : MetricTable) (g : Value) (i : Nat) (q : ℚ) : Prop :=
  i < df.rows.length ∧ rowGroup df i = g ∧ f1Num df i = some q
  ∧ (∀ j p, j < df.rows.length → rowGroup df j = g → f1Num df j = some p → q ≤ p)
  ∧ (∀ j p, j < i → rowGroup df j = g → f1Num df j = some p → q < p)

/-! ## Helper lemmas -/

theorem renderAbs_ne_empty (cs : List String) : renderAbs cs ≠ "" := by
  intro h
  have h2 := congrArg String.length h
  simp only [renderAbs, String.length_append] at h2
  rw [show ("/" : String).length = 1 from rfl, show ("" : String).length = 0 from rfl] at h2
  omega

theorem resolveDots_append_of_not_mem (cs : List String) (acc : List String)
    (h : ".." ∉ cs) :
    cs.foldl (fun acc c => if c = ".." then acc.dropLast else acc ++ [c]) acc = acc ++ cs := by
  induction cs generalizing acc with
  | nil => simp
  | cons c cs ih =>
    have hc : ¬(c = "..") := fun e => h (by simp [e])
    have hcs : ".." ∉ cs := fun m => h (List.mem_cons_of_mem _ m)
    simp only [List.foldl_cons, if_neg hc, ih _ hcs, List.append_assoc, List.singleton_append]

theorem resolveDots_of_not_mem (cs : List String) (h : ".." ∉ cs) :
    resolveDots cs = cs := by
  simpa using resolveDots_append_of_not_mem cs [] h

/-! ## C2: the path resolver -/

/-- C2: counterexample — for an absolute value containing `..`, `resolve_path`
returns it uncanonicalised, while the spec's contract demands the canonical
form: the claim "if the value is already an absolute path, its canonical form
(also with `..` and symlinks resolved)" fails at value `"/a/b/../c"`. -/
theorem resolve_path_absolute_counterexample :
    resolve_path ["base"] "/a/b/../c" = "/a/b/../c"
    ∧ spec_resolve_path ["base"] "/a/b/../c" = "/a/c"
    ∧ ("/a/b/../c" : String) ≠ "/a/c" :=
  ⟨by decide, by decide, by decide⟩

/-- C2 (amended): `resolve_path` returns the empty string exactly for
whitespace-only values; on relative values it agrees with the spec's
canonicalising resolver (resolving against the base and eliminating `..`);
on absolute values it agrees only when no `..` component is present — it
returns absolute values after syntactic normalisation without resolving
`..` or symlinks.  It never consults the filesystem. -/
theorem resolve_path_amended (base : List String) (v : String) :
    (resolve_path base v = "" ↔ pyStrip v = "")
    ∧ (isAbsStr (pyStrip v) = false → resolve_path base v = spec_resolve_path base v)
    ∧ (".." ∉ parseComponents (pyStrip v) → resolve_path base v = spec_resolve_path base v) := by
  by_cases hv : pyStrip v = ""
  · refine ⟨?_, ?_, ?_⟩ <;> simp [resolve_path, spec_resolve_path, hv]
  · refine ⟨?_, ?_, ?_⟩
    · simp only [resolve_path, if_neg hv]
      constructor
      · intro h
        exfalso
        revert h
        split
        · exact renderAbs_ne_empty _
        · exact renderAbs_ne_empty _
      · intro h
        exact absurd h hv
    · intro hab
      simp only [resolve_path, spec_resolve_path, if_neg hv, hab, Bool.false_eq_true,
        if_false]
    · intro hdd
      simp only [resolve_path, spec_resolve_path, if_neg hv]
      by_cases hab : isAbsStr (pyStrip v)
      · simp only [hab, if_true, resolveDots_of_not_mem _ hdd]
      · simp only [hab, Bool.false_eq_true, if_false]

/-- C2 witness: the amended theorem applied to a concrete relative value. -/
theorem resolve_path_amended_witness :
    resolve_path ["d"] "x/y" = spec_resolve_path ["d"] "x/y" :=
  (resolve_path_amended ["d"] "x/y").2.1 (by decide)

/-! ## C5: the cultural loop of the driver -/

/-- C5: counterexample — when a cached cultural summary exists and `--force`
is not set, the loop `continue`s before `summarize_best_worst`: the
summarization does not run although cached output exists, refuting
"CulturalScored → Summarized always runs if cultural scoring ran or cached
output exists". -/
theorem cultural_cached_skip_counterexample :
    (cultural_model_step true false).ranSummarize = false := rfl

/-- C5 (amended): per model, best/worst summarization runs exactly when
cultural scoring itself was freshly run this iteration; a cached summary
without `--force` skips the model entirely, summarization included. -/
theorem cultural_summarize_iff_scored (summaryExists force : Bool) :
    (cultural_model_step summaryExists force).ranSummarize
      = (cultural_model_step summaryExists force).ranCultural
    ∧ (cultural_model_step summaryExists force).ranCultural = (!summaryExists || force) := by
  cases summaryExists <;> cases force <;> exact ⟨rfl, rfl⟩

/-! ## C7 and C10: guard and column requirements of the summarizer -/

/-- C7: on an empty table, or a table without a `group_id` column,
`summarize_best_worst` returns silently without writing any output and
without raising. -/
theorem summarize_silent_noop (df : MetricTable)
    (h : df.rows = [] ∨ "group_id" ∉ df.columns) :
    summarize_best_worst df = .ok none := by
  unfold summarize_best_worst
  exact if_pos h

/-- C7 witness: the empty detail table. -/
theorem summarize_silent_noop_witness :
    summarize_best_worst ⟨["group_id", "f1"], []⟩ = .ok none :=
  summarize_silent_noop ⟨["group_id", "f1"], []⟩ (Or.inl rfl)

/-- C10: a table with `group_id` and `f1` columns but no `accuracy` column
makes `summarize_best_worst` raise a missing-column `KeyError` instead of
producing best/worst output: all four of accuracy, precision, recall, f1 are
implicitly required. -/
theorem summarize_requires_all_metric_columns :
    summarize_best_worst ⟨["group_id", "precision", "recall", "f1"],
        [[.str "g1", .num 1, .num 1, .num 1]]⟩ = .error "accuracy"
    ∧ "group_id" ∈ ["group_id", "precision", "recall", "f1"]
    ∧ "f1" ∈ ["group_id", "precision", "recall", "f1"]
    ∧ "accuracy" ∉ ["group_id", "precision", "recall", "f1"] :=
  ⟨rfl, by decide, by decide, by decide⟩

/-- C1: counterexample — the claim quantifies over tables containing only a
`group_id` and an `f1` column, but on such a table `summarize_best_worst`
raises a `KeyError` for the absent `accuracy` column and produces no output
records at all. -/
theorem summarize_group_f1_only_counterexample :
    summarize_best_worst ⟨["group_id", "f1"], [[.str "A", .num 1]]⟩ = .error "accuracy"
    ∧ ∀ o, summarize_best_worst ⟨["group_id", "f1"], [[.str "A", .num 1]]⟩ ≠ .ok o := by
  refine ⟨rfl, fun o h => ?_⟩
  rw [show summarize_best_worst ⟨["group_id", "f1"], [[.str "A", .num 1]]⟩
    = .error "accuracy" from rfl] at h
  exact Except.noConfusion h

/-! ## C4: failure conditions of the standardiser -/

theorem maxStepOf_eq_none_iff (cols : List String) :
    maxStepOf cols = none ↔ stepIdxs cols = [] := by
  cases h : stepIdxs cols <;> simp [maxStepOf, h]

/-- C4: `standardise_model_csv` raises an error if and only if the source
file is missing, the table has no rows, no prompt column can be located, or
no step columns are detected; on every other input it succeeds and writes
the canonical CSV. -/
theorem standardise_error_iff (base : List String) (sourceExists : Bool) (df : RawTable) :
    (∃ e, standardise_model_csv base sourceExists df = .error e) ↔
      (sourceExists = false ∨ df.rows = []
       ∨ find_column df.columns promptCandidates = none
       ∨ stepIdxs df.columns = []) := by
  unfold standardise_model_csv
  cases sourceExists with
  | false => simp
  | true =>
    simp only [Bool.not_true, Bool.false_eq_true, if_false]
    by_cases hr : df.rows = []
    · simp [hr]
    · rw [if_neg (by simpa [List.isEmpty_eq_false] using hr)]
      cases hp : find_column df.columns promptCandidates with
      | none => simp [hr]
      | some p =>
        cases hm : maxStepOf df.columns with
        | none =>
          simp [hr, (maxStepOf_eq_none_iff df.columns).mp hm]
        | some m =>
          have hne : ¬(stepIdxs df.columns = []) := by
            intro h
            rw [(maxStepOf_eq_none_iff df.columns).mpr h] at hm
            exact Option.noConfusion hm
          simp [hr, hne]

/-! ## C6: the column resolver -/

theorem foldl_lastPick {α : Type} (p : α → Prop) [DecidablePred p] (l : List α)
    (a : Option α) :
    l.foldl (fun acc x => if p x then some x else acc) a
      = ((l.filter (fun x => decide (p x))).getLast?).or a := by
  induction l using List.reverseRecOn generalizing a with
  | nil => simp
  | append_singleton l x ih =>
    rw [List.foldl_append, List.filter_append]
    by_cases hx : p x
    · simp [hx, List.getLast?_concat]
    · simp only [List.foldl_cons, List.foldl_nil, if_neg hx, List.filter_cons,
        decide_eq_true_eq, hx, if_false, List.filter_nil, List.append_nil]
      exact ih a

theorem dictLookup_eq_lastMatch (cols : List String) (k : String) :
    dictLookup cols k = (cols.filter (fun h => decide (foldName h = k))).getLast? := by
  rw [dictLookup, foldl_lastPick (fun col => foldName col = k) cols none, Option.or_none]

/-- C6 (amended): `find_column` returns, for the first candidate (in
candidate order) whose folded form matches the folded form of some header,
the last header with that folded form (later headers shadow earlier ones in
the dictionary); it returns none exactly when no header folds equal to any
candidate; and any returned header is a column whose folded form exactly
equals a candidate's folded form — never a mere substring match. -/
theorem find_column_characterization (cols cands : List String) :
    find_column cols cands =
      (cands.find? (fun c => cols.any (fun h => decide (foldName h = foldName c)))).bind
        (fun c => (cols.filter (fun h => decide (foldName h = foldName c))).getLast?)
    ∧ (find_column cols cands = none ↔
        ∀ c ∈ cands, ∀ h ∈ cols, foldName h ≠ foldName c)
    ∧ (∀ h, find_column cols cands = some h →
        h ∈ cols ∧ ∃ c ∈ cands, foldName h = foldName c) := by
  have main : ∀ cs : List String, find_column cols cs =
      (cs.find? (fun c => cols.any (fun h => decide (foldName h = foldName c)))).bind
        (fun c => (cols.filter (fun h => decide (foldName h = foldName c))).getLast?) := by
    intro cs
    induction cs with
    | nil => rfl
    | cons c cs ih =>
      rw [find_column, List.findSome?_cons, dictLookup_eq_lastMatch, List.find?_cons]
      by_cases hm : ∃ h ∈ cols, foldName h = foldName c
      · have hne : cols.filter (fun h => decide (foldName h = foldName c)) ≠ [] := by
          rw [ne_eq, List.filter_eq_nil_iff]
          push_neg
          obtain ⟨h₀, hh, he⟩ := hm
          exact ⟨h₀, hh, by simpa using he⟩
        obtain ⟨y, hy⟩ := Option.isSome_iff_exists.mp (List.getLast?_isSome.mpr hne)
        have hany : cols.any (fun h => decide (foldName h = foldName c)) = true := by
          rw [List.any_eq_true]
          obtain ⟨h₀, hh, he⟩ := hm
          exact ⟨h₀, hh, by simpa using he⟩
        rw [hy, hany]
        exact hy.symm
      · have hfil : cols.filter (fun h => decide (foldName h = foldName c)) = [] := by
          rw [List.filter_eq_nil_iff]
          push_neg at hm
          intro h hh
          simpa using hm h hh
        have hany : cols.any (fun h => decide (foldName h = foldName c)) = false := by
          rw [Bool.eq_false_iff, ne_eq, List.any_eq_true]
          push_neg at hm
          rintro ⟨h, hh, he⟩
          exact hm h hh (by simpa using he)
        rw [hfil, hany]
        simpa using ih
  refine ⟨main cands, ?_, ?_⟩
  · rw [main cands]
    constructor
    · intro hnone c hc h hh he
      cases hf : cands.find? (fun c => cols.any (fun h => decide (foldName h = foldName c))) with
      | none =>
        rw [List.find?_eq_none] at hf
        have := hf c hc
        rw [List.any_eq_true] at this
        exact this ⟨h, hh, by simpa using he⟩
      | some c' =>
        rw [hf] at hnone
        have hany := List.find?_some hf
        rw [List.any_eq_true] at hany
        obtain ⟨h₀, hh₀, he₀⟩ := hany
        have hne : cols.filter (fun x => decide (foldName x = foldName c')) ≠ [] := by
          rw [ne_eq, List.filter_eq_nil_iff]
          push_neg
          exact ⟨h₀, hh₀, he₀⟩
        obtain ⟨y, hy⟩ := Option.isSome_iff_exists.mp (List.getLast?_isSome.mpr hne)
        rw [Option.some_bind, hy] at hnone
        exact Option.noConfusion hnone
    · intro hall
      cases hf : cands.find? (fun c => cols.any (fun h => decide (foldName h = foldName c))) with
      | none => simp [hf]
      | some c' =>
        exfalso
        have hany := List.find?_some hf
        rw [List.any_eq_true] at hany
        obtain ⟨h₀, hh₀, he₀⟩ := hany
        exact hall c' (List.mem_of_find?_eq_some hf) h₀ hh₀ (by simpa using he₀)
  · intro h hsome
    rw [main cands] at hsome
    cases hf : cands.find? (fun c => cols.any (fun h => decide (foldName h = foldName c))) with
    | none => rw [hf] at hsome; exact Option.noConfusion hsome
    | some c' =>
      rw [hf, Option.some_bind] at hsome
      have hmem : h ∈ cols.filter (fun x => decide (foldName x = foldName c')) := by
        obtain ⟨hlast, he⟩ := List.mem_getLast?_eq_getLast hsome
        rw [he]
        exact List.getLast_mem hlast
      rw [List.mem_filter] at hmem
      exact ⟨hmem.1, c', List.mem_of_find?_eq_some hf, by simpa using hmem.2⟩

/-- C6 witness: the characterization applied to a concrete match. -/
theorem find_column_characterization_witness :
    "F1 " ∈ ["Score", "F1 "] ∧ ∃ c ∈ ["f1"], foldName "F1 " = foldName c :=
  (find_column_characterization ["Score", "F1 "] ["f1"]).2.2 "F1 " (by decide)

/-- C6: counterexample — with headers `["text", "Prompt", "prompt "]` and
candidates `["prompt", "text"]`, `find_column` returns `"prompt "` (first
candidate's key, resolved to the *last* header folding to it), while the
first header case-insensitively equal to some candidate is `"text"`. -/
theorem find_column_first_header_counterexample :
    find_column ["text", "Prompt", "prompt "] ["prompt", "text"] = some "prompt "
    ∧ specFirstHeader ["text", "Prompt", "prompt "] ["prompt", "text"] = some "text"
    ∧ ("prompt " : String) ≠ "text" :=
  ⟨by decide, by decide, by decide⟩

/-! ## C3, C8, C9: the standardiser's accepted inputs -/

theorem foldl_max_mem (i : Nat) (is : List Nat) : is.foldl max i ∈ i :: is := by
  induction is generalizing i with
  | nil => simp
  | cons a as ih =>
    rw [List.foldl_cons]
    rcases List.mem_cons.mp (ih (max i a)) with h | h
    · rw [h]
      rcases Nat.le_total i a with hle | hle
      · rw [Nat.max_eq_right hle]
        exact List.mem_cons_of_mem _ (List.mem_cons_self a as)
      · rw [Nat.max_eq_left hle]
        exact List.mem_cons_self i _
    · exact List.mem_cons_of_mem _ (List.mem_cons_of_mem _ h)

theorem foldl_max_le (i : Nat) (is : List Nat) : ∀ j ∈ i :: is, j ≤ is.foldl max i := by
  induction is generalizing i with
  | nil =>
    intro j hj
    rw [List.mem_singleton] at hj
    exact hj.le
  | cons a as ih =>
    intro j hj
    rw [List.foldl_cons]
    have hbase : max i a ≤ as.foldl max (max i a) :=
      ih (max i a) (max i a) (List.mem_cons_self _ _)
    rcases List.mem_cons.mp hj with rfl | hj'
    · exact le_trans (Nat.le_max_left j a) hbase
    · rcases List.mem_cons.mp hj' with rfl | hj''
      · exact le_trans (Nat.le_max_right i j) hbase
      · exact ih (max i a) j (List.mem_cons_of_mem _ hj'')

theorem maxStepOf_spec (cols : List String) (m : Nat) (hm : maxStepOf cols = some m) :
    m ∈ stepIdxs cols ∧ ∀ j ∈ stepIdxs cols, j ≤ m := by
  cases h : stepIdxs cols with
  | nil =>
    rw [(maxStepOf_eq_none_iff cols).mpr h] at hm
    exact Option.noConfusion hm
  | cons i is =>
    unfold maxStepOf at hm
    rw [h] at hm
    obtain rfl := (Option.some.injEq _ _).mp hm
    exact ⟨foldl_max_mem i is, foldl_max_le i is⟩

theorem getD_map_range {α : Type} (f : Nat → α) {n i : Nat} (d : α) (h : i < n) :
    ((List.range n).map f).getD i d = f i := by
  rw [List.getD_eq_getElem?_getD, List.getElem?_map, List.getElem?_range h]
  rfl

theorem getD_map_of_lt {α β : Type} (f : α → β) (l : List α) {k : Nat} (d : β) (d' : α)
    (h : k < l.length) :
    (l.map f).getD k d = f (l.getD k d') := by
  rw [List.getD_eq_getElem?_getD, List.getElem?_map, List.getElem?_eq_getElem h,
    List.getD_eq_getElem l d' h]
  rfl

theorem standardise_ok (base : List String) (df : RawTable) (p : String) (m : Nat)
    (hp : find_column df.columns promptCandidates = some p)
    (hm : maxStepOf df.columns = some m)
    (hrows : df.rows ≠ []) :
    standardise_model_csv base true df =
      .ok (⟨"prompt" :: "editing_prompt" :: (List.range (m + 1)).map stepFieldName,
            df.rows.map (standardRecord base df.columns p
              (find_column df.columns editingCandidates) m)⟩, m) := by
  unfold standardise_model_csv
  rw [if_neg (by simp), if_neg (by simpa [List.isEmpty_eq_false] using hrows), hp, hm]

theorem standardRecord_length (base : List String) (cols : List String) (p : String)
    (e : Option String) (m : Nat) (row : List (Option String)) :
    (standardRecord base cols p e m row).length = m + 3 := by
  simp [standardRecord]

/-- C3: on an accepted source CSV (prompt column found, `m` the highest
detected step index, at least one row), the canonical CSV has header exactly
`prompt, editing_prompt, step0_path, ..., step{m}_path`; `m` is the maximum
detected index; every output row has one cell per field; step indices with
no source column give every row an empty cell; and step indices with a
source column give each row the resolved absolute path of its cell, empty
when the cell is NaN (and `resolve_path` itself returns `""` on
empty/whitespace cells). -/
theorem standardise_canonical_output (base : List String) (df : RawTable) (p : String)
    (m : Nat)
    (hp : find_column df.columns promptCandidates = some p)
    (hm : maxStepOf df.columns = some m)
    (hrows : df.rows ≠ []) :
    ∃ out : CanonCsv, standardise_model_csv base true df = .ok (out, m)
      ∧ out.header = "prompt" :: "editing_prompt" :: (List.range (m + 1)).map stepFieldName
      ∧ m ∈ stepIdxs df.columns ∧ (∀ j ∈ stepIdxs df.columns, j ≤ m)
      ∧ (∀ row ∈ out.rows, row.length = m + 3)
      ∧ (∀ idx, idx ≤ m → stepColumnsOf df.columns idx = none →
          ∀ row ∈ out.rows, row.getD (idx + 2) "x" = "")
      ∧ (∀ idx, idx ≤ m → ∀ c, stepColumnsOf df.columns idx = some c →
          ∀ k, k < df.rows.length →
            (out.rows.getD k []).getD (idx + 2) "x" =
              (match cellOfRow df.columns (df.rows.getD k []) c with
                | some s => resolve_path base s
                | none => "")) := by
  refine ⟨_, standardise_ok base df p m hp hm hrows, rfl,
    (maxStepOf_spec df.columns m hm).1, (maxStepOf_spec df.columns m hm).2, ?_, ?_, ?_⟩
  · intro row hrow
    obtain ⟨r, _, rfl⟩ := List.mem_map.mp hrow
    exact standardRecord_length base df.columns p _ m r
  · intro idx hidx hnone row hrow
    obtain ⟨r, _, rfl⟩ := List.mem_map.mp hrow
    show (standardRecord base df.columns p _ m r).getD (idx + 2) "x" = ""
    unfold standardRecord
    rw [List.getD_cons_succ, List.getD_cons_succ,
      getD_map_range _ _ (Nat.lt_succ_of_le hidx), hnone]
  · intro idx hidx c hc k hk
    rw [getD_map_of_lt (standardRecord base df.columns p _ m) df.rows [] [] hk]
    unfold standardRecord
    rw [List.getD_cons_succ, List.getD_cons_succ,
      getD_map_range _ _ (Nat.lt_succ_of_le hidx), hc]

/-- C3 witness: the canonical-output theorem applied to a source CSV with
`Prompt, Edit_1, Edit_2` headers and no step-0 column. -/
theorem standardise_canonical_output_witness :
    ∃ out : CanonCsv,
      standardise_model_csv ["d"] true
        ⟨["Prompt", "Edit_1", "Edit_2"], [[some "a cat", some "img1.png", none]]⟩
        = .ok (out, 2) := by
  obtain ⟨out, hok, _⟩ := standardise_canonical_output ["d"]
    ⟨["Prompt", "Edit_1", "Edit_2"], [[some "a cat", some "img1.png", none]]⟩
    "Prompt" 2 (by decide) (by decide) (by decide)
  exact ⟨out, hok⟩

/-- C9: on every accepted source CSV, the canonical output has exactly one
row per input row. -/
theorem standardise_row_count (base : List String) (df : RawTable) (p : String) (m : Nat)
    (hp : find_column df.columns promptCandidates = some p)
    (hm : maxStepOf df.columns = some m)
    (hrows : df.rows ≠ []) :
    ∃ out : CanonCsv, standardise_model_csv base true df = .ok (out, m)
      ∧ out.rows.length = df.rows.length :=
  ⟨_, standardise_ok base df p m hp hm hrows, List.length_map _ _⟩

/-- C9 witness: row count preserved on a concrete two-row CSV. -/
theorem standardise_row_count_witness :
    ∃ out : CanonCsv,
      standardise_model_csv ["d"] true
        ⟨["text", "step1"], [[some "p1", some "a.png"], [some "p2", none]]⟩
        = .ok (out, 1)
      ∧ out.rows.length = 2 := by
  obtain ⟨out, hok, hlen⟩ := standardise_row_count ["d"]
    ⟨["text", "step1"], [[some "p1", some "a.png"], [some "p2", none]]⟩
    "text" 1 (by decide) (by decide) (by decide)
  exact ⟨out, hok, hlen⟩

/-- C8: counterexample — a whitespace-only prompt cell is emitted as an
empty prompt field: the output row of the accepted CSV below has
`prompt = ""`, refuting "every emitted canonical row has a non-empty
prompt field". -/
theorem standardise_blank_prompt_counterexample :
    ∃ out : CanonCsv,
      standardise_model_csv ["d"] true ⟨["prompt", "step1"], [[some " ", some "img.png"]]⟩
        = .ok (out, 1)
      ∧ (out.rows.getD 0 []).getD 0 "x" = "" :=
  ⟨_, rfl, rfl⟩

/-- C8 (amended): every emitted row's prompt field is the stripped string
form of its prompt cell; it is non-empty whenever the cell is missing (NaN
prints as `"nan"`) and, for string cells, it is empty exactly when the cell
is whitespace-only.  Prompt emptiness is never rejected row by row — only
the absence of a prompt column fails, at whole-file level. -/
theorem standardise_prompt_amended (base : List String) (df : RawTable) (p : String)
    (m : Nat)
    (hp : find_column df.columns promptCandidates = some p)
    (hm : maxStepOf df.columns = some m)
    (hrows : df.rows ≠ []) :
    ∃ out : CanonCsv, standardise_model_csv base true df = .ok (out, m)
      ∧ ∀ k, k < df.rows.length →
          (out.rows.getD k []).getD 0 "x"
            = pyStrip (pyStrCell (cellOfRow df.columns (df.rows.getD k []) p))
          ∧ (cellOfRow df.columns (df.rows.getD k []) p = none →
              (out.rows.getD k []).getD 0 "x" ≠ "")
          ∧ (∀ s, cellOfRow df.columns (df.rows.getD k []) p = some s →
              ((out.rows.getD k []).getD 0 "x" = "" ↔ pyStrip s = "")) := by
  refine ⟨_, standardise_ok base df p m hp hm hrows, ?_⟩
  intro k hk
  rw [getD_map_of_lt (standardRecord base df.columns p _ m) df.rows [] [] hk]
  unfold standardRecord
  rw [List.getD_cons_zero]
  refine ⟨rfl, ?_, ?_⟩
  · intro hcell
    rw [hcell]
    decide
  · intro s hcell
    rw [hcell]
    exact Iff.rfl

/-! ## C1: best/worst selection -/

theorem pickMax_cons (p a : Nat × ℚ) (ps : List (Nat × ℚ)) :
    pickMax p (a :: ps) = pickMax (if p.2 < a.2 then a else p) ps := rfl

theorem pickMin_cons (p a : Nat × ℚ) (ps : List (Nat × ℚ)) :
    pickMin p (a :: ps) = pickMin (if a.2 < p.2 then a else p) ps := rfl

theorem pickMax_mem (p : Nat × ℚ) (ps : List (Nat × ℚ)) : pickMax p ps ∈ p :: ps := by
  induction ps generalizing p with
  | nil => exact List.mem_singleton.mpr rfl
  | cons a ps ih =>
    rw [pickMax_cons]
    rcases List.mem_cons.mp (ih (if p.2 < a.2 then a else p)) with h | h
    · rw [h]
      split
      · exact List.mem_cons_of_mem _ (List.mem_cons_self _ _)
      · exact List.mem_cons_self _ _
    · exact List.mem_cons_of_mem _ (List.mem_cons_of_mem _ h)

theorem pickMin_mem (p : Nat × ℚ) (ps : List (Nat × ℚ)) : pickMin p ps ∈ p :: ps := by
  induction ps generalizing p with
  | nil => exact List.mem_singleton.mpr rfl
  | cons a ps ih =>
    rw [pickMin_cons]
    rcases List.mem_cons.mp (ih (if a.2 < p.2 then a else p)) with h | h
    · rw [h]
      split
      · exact List.mem_cons_of_mem _ (List.mem_cons_self _ _)
      · exact List.mem_cons_self _ _
    · exact List.mem_cons_of_mem _ (List.mem_cons_of_mem _ h)

theorem pickMax_le (p : Nat × ℚ) (ps : List (Nat × ℚ)) :
    ∀ x ∈ p :: ps, x.2 ≤ (pickMax p ps).2 := by
  induction ps generalizing p with
  | nil =>
    intro x hx
    rw [List.mem_singleton] at hx
    rw [hx]
    exact le_refl _
  | cons a ps ih =>
    intro x hx
    rw [pickMax_cons]
    have hple : p.2 ≤ (if p.2 < a.2 then a else p).2 := by
      split
      · exact le_of_lt ‹_›
      · exact le_refl _
    have hale : a.2 ≤ (if p.2 < a.2 then a else p).2 := by
      split
      · exact le_refl _
      · exact le_of_not_lt ‹_›
    have hbase := ih (if p.2 < a.2 then a else p) _ (List.mem_cons_self _ _)
    rcases List.mem_cons.mp hx with rfl | hx'
    · exact le_trans hple hbase
    · rcases List.mem_cons.mp hx' with rfl | hx''
      · exact le_trans hale hbase
      · exact ih _ x (List.mem_cons_of_mem _ hx'')

theorem pickMin_le (p : Nat × ℚ) (ps : List (Nat × ℚ)) :
    ∀ x ∈ p :: ps, (pickMin p ps).2 ≤ x.2 := by
  induction ps generalizing p with
  | nil =>
    intro x hx
    rw [List.mem_singleton] at hx
    rw [hx]
    exact le_refl _
  | cons a ps ih =>
    intro x hx
    rw [pickMin_cons]
    have hple : (if a.2 < p.2 then a else p).2 ≤ p.2 := by
      split
      · exact le_of_lt ‹_›
      · exact le_refl _
    have hale : (if a.2 < p.2 then a else p).2 ≤ a.2 := by
      split
      · exact le_refl _
      · exact le_of_not_lt ‹_›
    have hbase := ih (if a.2 < p.2 then a else p) _ (List.mem_cons_self _ _)
    rcases List.mem_cons.mp hx with rfl | hx'
    · exact le_trans hbase hple
    · rcases List.mem_cons.mp hx' with rfl | hx''
      · exact le_trans hbase hale
      · exact ih _ x (List.mem_cons_of_mem _ hx'')

theorem pickMax_eq_or_lt (p : Nat × ℚ) (ps : List (Nat × ℚ)) :
    pickMax p ps = p ∨ p.2 < (pickMax p ps).2 := by
  induction ps generalizing p with
  | nil => exact Or.inl rfl
  | cons a ps ih =>
    rw [pickMax_cons]
    by_cases h : p.2 < a.2
    · right
      rw [if_pos h]
      rcases ih a with he | hlt
      · rw [he]
        exact h
      · exact lt_trans h hlt
    · rw [if_neg h]
      exact ih p

theorem pickMin_eq_or_lt (p : Nat × ℚ) (ps : List (Nat × ℚ)) :
    pickMin p ps = p ∨ (pickMin p ps).2 < p.2 := by
  induction ps generalizing p with
  | nil => exact Or.inl rfl
  | cons a ps ih =>
    rw [pickMin_cons]
    by_cases h : a.2 < p.2
    · right
      rw [if_pos h]
      rcases ih a with he | hlt
      · rw [he]
        exact h
      · exact lt_trans hlt h
    · rw [if_neg h]
      exact ih p

theorem pickMax_first (p : Nat × ℚ) (ps : List (Nat × ℚ))
    (hs : (p :: ps).Pairwise (fun a b => a.1 < b.1)) :
    ∀ x ∈ p :: ps, x.1 < (pickMax p ps).1 → x.2 < (pickMax p ps).2 := by
  induction ps generalizing p with
  | nil =>
    intro x hx hlt
    rw [List.mem_singleton] at hx
    subst hx
    exact absurd hlt (lt_irrefl _)
  | cons a ps ih =>
    intro x hx hlt
    rw [pickMax_cons] at hlt ⊢
    obtain ⟨hp1, hs2⟩ := List.pairwise_cons.mp hs
    by_cases hpa : p.2 < a.2
    · rw [if_pos hpa] at hlt ⊢
      rcases List.mem_cons.mp hx with rfl | hx'
      · exact lt_of_lt_of_le hpa (pickMax_le a ps a (List.mem_cons_self _ _))
      · exact ih a hs2 x hx' hlt
    · rw [if_neg hpa] at hlt ⊢
      obtain ⟨ha1, hs3⟩ := List.pairwise_cons.mp hs2
      have hs' : (p :: ps).Pairwise (fun u v => u.1 < v.1) :=
        List.pairwise_cons.mpr ⟨fun y hy => hp1 y (List.mem_cons_of_mem _ hy), hs3⟩
      rcases List.mem_cons.mp hx with rfl | hx'
      · rcases pickMax_eq_or_lt x ps with he | h2
        · rw [he] at hlt
          exact absurd hlt (lt_irrefl _)
        · exact h2
      · rcases List.mem_cons.mp hx' with rfl | hx''
        · rcases pickMax_eq_or_lt p ps with he | h2
          · rw [he] at hlt
            exact absurd (lt_trans hlt (hp1 x (List.mem_cons_self _ _))) (lt_irrefl _)
          · exact lt_of_le_of_lt (le_of_not_lt hpa) h2
        · exact ih p hs' x (List.mem_cons_of_mem _ hx'') hlt

theorem pickMin_first (p : Nat × ℚ) (ps : List (Nat × ℚ))
    (hs : (p :: ps).Pairwise (fun a b => a.1 < b.1)) :
    ∀ x ∈ p :: ps, x.1 < (pickMin p ps).1 → (pickMin p ps).2 < x.2 := by
  induction ps generalizing p with
  | nil =>
    intro x hx hlt
    rw [List.mem_singleton] at hx
    subst hx
    exact absurd hlt (lt_irrefl _)
  | cons a ps ih =>
    intro x hx hlt
    rw [pickMin_cons] at hlt ⊢
    obtain ⟨hp1, hs2⟩ := List.pairwise_cons.mp hs
    by_cases hpa : a.2 < p.2
    · rw [if_pos hpa] at hlt ⊢
      rcases List.mem_cons.mp hx with rfl | hx'
      · exact lt_of_le_of_lt (pickMin_le a ps a (List.mem_cons_self _ _)) hpa
      · exact ih a hs2 x hx' hlt
    · rw [if_neg hpa] at hlt ⊢
      obtain ⟨ha1, hs3⟩ := List.pairwise_cons.mp hs2
      have hs' : (p :: ps).Pairwise (fun u v => u.1 < v.1) :=
        List.pairwise_cons.mpr ⟨fun y hy => hp1 y (List.mem_cons_of_mem _ hy), hs3⟩
      rcases List.mem_cons.mp hx with rfl | hx'
      · rcases pickMin_eq_or_lt x ps with he | h2
        · rw [he] at hlt
          exact absurd hlt (lt_irrefl _)
        · exact h2
      · rcases List.mem_cons.mp hx' with rfl | hx''
        · rcases pickMin_eq_or_lt p ps with he | h2
          · rw [he] at hlt
            exact absurd (lt_trans hlt (hp1 x (List.mem_cons_self _ _))) (lt_irrefl _)
          · exact lt_of_lt_of_le h2 (le_of_not_lt hpa)
        · exact ih p hs' x (List.mem_cons_of_mem _ hx'') hlt

theorem mem_groupRowIdxs (df : MetricTable) (g : Value) (i : Nat) :
    i ∈ groupRowIdxs df g ↔ i < df.rows.length ∧ rowGroup df i = g := by
  simp [groupRowIdxs, List.mem_filter, List.mem_range]

theorem groupRowIdxs_pairwise (df : MetricTable) (g : Value) :
    (groupRowIdxs df g).Pairwise (· < ·) :=
  List.Pairwise.filter _ (List.pairwise_lt_range _)

theorem mem_f1Pairs (df : MetricTable) (g : Value) (i : Nat) (q : ℚ) :
    (i, q) ∈ f1Pairs df g ↔ i ∈ groupRowIdxs df g ∧ f1Num df i = some q := by
  simp only [f1Pairs, List.mem_filterMap]
  constructor
  · rintro ⟨j, hj, hjq⟩
    rw [Option.map_eq_some'] at hjq
    obtain ⟨q', hq', heq⟩ := hjq
    obtain ⟨rfl, rfl⟩ := Prod.mk.injEq .. ▸ heq
    exact ⟨hj, hq'⟩
  · rintro ⟨hi, hq⟩
    exact ⟨i, hi, by rw [hq]; rfl⟩

theorem f1Pairs_pairwise (df : MetricTable) (g : Value) :
    (f1Pairs df g).Pairwise (fun a b => a.1 < b.1) := by
  rw [f1Pairs, List.pairwise_filterMap]
  apply List.Pairwise.imp ?_ (groupRowIdxs_pairwise df g)
  intro a b hab x hx y hy
  rw [Option.mem_def, Option.map_eq_some'] at hx hy
  obtain ⟨qa, _, rfl⟩ := hx
  obtain ⟨qb, _, rfl⟩ := hy
  exact hab

theorem f1Pairs_eq_nil_iff (df : MetricTable) (g : Value) :
    f1Pairs df g = [] ↔ ∀ i ∈ groupRowIdxs df g, f1Num df i = none := by
  rw [f1Pairs, List.filterMap_eq_nil_iff]
  constructor <;> intro h i hi
  · have := h i hi
    rwa [Option.map_eq_none'] at this
  · rw [h i hi]
    rfl

theorem idxmaxF1_eq_none_iff (df : MetricTable) (g : Value) :
    idxmaxF1 df g = none ↔ f1Pairs df g = [] := by
  cases h : f1Pairs df g <;> simp [idxmaxF1, h]

theorem idxminF1_eq_none_iff (df : MetricTable) (g : Value) :
    idxminF1 df g = none ↔ f1Pairs df g = [] := by
  cases h : f1Pairs df g <;> simp [idxminF1, h]

theorem idxmaxF1_isFirstMax (df : MetricTable) (g : Value) (i : Nat)
    (h : idxmaxF1 df g = some i) : ∃ q, IsFirstMax df g i q := by
  unfold idxmaxF1 at h
  cases hp : f1Pairs df g with
  | nil =>
    rw [hp] at h
    exact Option.noConfusion h
  | cons p ps =>
    rw [hp] at h
    obtain rfl := (Option.some.injEq _ _).mp h
    have hmem : pickMax p ps ∈ f1Pairs df g := hp ▸ pickMax_mem p ps
    have hm2 := (mem_f1Pairs df g (pickMax p ps).1 (pickMax p ps).2).mp
      (by rw [Prod.mk.eta]; exact hmem)
    obtain ⟨hgidx, hf1⟩ := hm2
    obtain ⟨hlt, hgrp⟩ := (mem_groupRowIdxs df g (pickMax p ps).1).mp hgidx
    refine ⟨(pickMax p ps).2, hlt, hgrp, hf1, ?_, ?_⟩
    · intro j p' hj hgj hfj
      have hmem' : (j, p') ∈ f1Pairs df g :=
        (mem_f1Pairs df g j p').mpr ⟨(mem_groupRowIdxs df g j).mpr ⟨hj, hgj⟩, hfj⟩
      rw [hp] at hmem'
      exact pickMax_le p ps (j, p') hmem'
    · intro j p' hji hgj hfj
      have hjlt : j < df.rows.length := lt_trans hji hlt
      have hmem' : (j, p') ∈ f1Pairs df g :=
        (mem_f1Pairs df g j p').mpr ⟨(mem_groupRowIdxs df g j).mpr ⟨hjlt, hgj⟩, hfj⟩
      rw [hp] at hmem'
      exact pickMax_first p ps (hp ▸ f1Pairs_pairwise df g) (j, p') hmem' hji

theorem idxminF1_isFirstMin (df : MetricTable) (g : Value) (i : Nat)
    (h : idxminF1 df g = some i) : ∃ q, IsFirstMin df g i q := by
  unfold idxminF1 at h
  cases hp : f1Pairs df g with
  | nil =>
    rw [hp] at h
    exact Option.noConfusion h
  | cons p ps =>
    rw [hp] at h
    obtain rfl := (Option.some.injEq _ _).mp h
    have hmem : pickMin p ps ∈ f1Pairs df g := hp ▸ pickMin_mem p ps
    have hm2 := (mem_f1Pairs df g (pickMin p ps).1 (pickMin p ps).2).mp
      (by rw [Prod.mk.eta]; exact hmem)
    obtain ⟨hgidx, hf1⟩ := hm2
    obtain ⟨hlt, hgrp⟩ := (mem_groupRowIdxs df g (pickMin p ps).1).mp hgidx
    refine ⟨(pickMin p ps).2, hlt, hgrp, hf1, ?_, ?_⟩
    · intro j p' hj hgj hfj
      have hmem' : (j, p') ∈ f1Pairs df g :=
        (mem_f1Pairs df g j p').mpr ⟨(mem_groupRowIdxs df g j).mpr ⟨hj, hgj⟩, hfj⟩
      rw [hp] at hmem'
      exact pickMin_le p ps (j, p') hmem'
    · intro j p' hji hgj hfj
      have hjlt : j < df.rows.length := lt_trans hji hlt
      have hmem' : (j, p') ∈ f1Pairs df g :=
        (mem_f1Pairs df g j p').mpr ⟨(mem_groupRowIdxs df g j).mpr ⟨hjlt, hgj⟩, hfj⟩
      rw [hp] at hmem'
      exact pickMin_first p ps (hp ▸ f1Pairs_pairwise df g) (j, p') hmem' hji

theorem dedupFirst_go_mem (l : List Value) (acc : List Value) (v : Value) :
    v ∈ l.foldl (fun acc v => if v ∈ acc then acc else acc ++ [v]) acc ↔
      v ∈ acc ∨ v ∈ l := by
  induction l generalizing acc with
  | nil => simp
  | cons x xs ih =>
    rw [List.foldl_cons]
    by_cases hx : x ∈ acc
    · rw [if_pos hx, ih, List.mem_cons]
      constructor
      · rintro (h | h)
        · exact Or.inl h
        · exact Or.inr (Or.inr h)
      · rintro (h | rfl | h)
        · exact Or.inl h
        · exact Or.inl hx
        · exact Or.inr h
    · rw [if_neg hx, ih, List.mem_append, List.mem_singleton, List.mem_cons]
      tauto

theorem mem_dedupFirst (l : List Value) (v : Value) : v ∈ dedupFirst l ↔ v ∈ l := by
  rw [dedupFirst, dedupFirst_go_mem]
  simp

theorem dedupFirst_go_nodup (l : List Value) (acc : List Value) (h : acc.Nodup) :
    (l.foldl (fun acc v => if v ∈ acc then acc else acc ++ [v]) acc).Nodup := by
  induction l generalizing acc with
  | nil => exact h
  | cons x xs ih =>
    rw [List.foldl_cons]
    by_cases hx : x ∈ acc
    · rw [if_pos hx]
      exact ih acc h
    · rw [if_neg hx]
      refine ih _ ?_
      rw [List.nodup_append]
      exact ⟨h, List.nodup_singleton x, by simpa [List.disjoint_singleton] using hx⟩

theorem dedupFirst_nodup (l : List Value) : (dedupFirst l).Nodup :=
  dedupFirst_go_nodup l [] List.nodup_nil

theorem mem_groupKeysOf (df : MetricTable) (g : Value) :
    g ∈ groupKeysOf df ↔
      g ≠ Value.na ∧ ∃ i, i < df.rows.length ∧ rowGroup df i = g := by
  rw [groupKeysOf, mem_dedupFirst, List.mem_filter, List.mem_map]
  simp only [List.mem_range, decide_eq_true_eq]
  tauto

theorem bwRecordFor_eq_some (cf : MetricTable) (g : Value) (r : BWRecord)
    (h : bwRecordFor cf g = some r) :
    r.group_id = g ∧ ∃ bi wi, idxmaxF1 cf g = some bi ∧ idxminF1 cf g = some wi
      ∧ r.best = cf.rows.getD bi [] ∧ r.worst = cf.rows.getD wi [] := by
  unfold bwRecordFor at h
  cases hb : idxmaxF1 cf g with
  | none =>
    rw [hb] at h
    cases hw : idxminF1 cf g <;> rw [hw] at h <;> exact Option.noConfusion h
  | some bi =>
    cases hw : idxminF1 cf g with
    | none =>
      rw [hb, hw] at h
      exact Option.noConfusion h
    | some wi =>
      rw [hb, hw] at h
      obtain rfl := ((Option.some.injEq _ _).mp h).symm
      exact ⟨rfl, bi, wi, rfl, rfl, rfl, rfl⟩

theorem bwRecordFor_isSome_iff (cf : MetricTable) (g : Value) :
    (bwRecordFor cf g).isSome ↔ f1Pairs cf g ≠ [] := by
  unfold bwRecordFor
  cases hp : f1Pairs cf g with
  | nil => simp [idxmaxF1, idxminF1, hp]
  | cons p ps => simp [idxmaxF1, idxminF1, hp]

theorem map_groupid_filterMap (cf : MetricTable) (l : List Value) :
    (l.filterMap (bwRecordFor cf)).map BWRecord.group_id
      = l.filter (fun g => (bwRecordFor cf g).isSome) := by
  induction l with
  | nil => rfl
  | cons g gs ih =>
    rw [List.filterMap_cons, List.filter_cons]
    cases hb : bwRecordFor cf g with
    | none => simp [hb, ih]
    | some r =>
      have hg := (bwRecordFor_eq_some cf g r hb).1
      simp [hb, hg, ih]

theorem summarize_ok (df : MetricTable) (hg : "group_id" ∈ df.columns)
    (h1 : "accuracy" ∈ df.columns) (h2 : "precision" ∈ df.columns)
    (h3 : "recall" ∈ df.columns) (h4 : "f1" ∈ df.columns) (hrows : df.rows ≠ []) :
    summarize_best_worst df
      = .ok (some ((groupKeysOf (coerceNumeric df)).filterMap
          (bwRecordFor (coerceNumeric df)))) := by
  unfold summarize_best_worst
  rw [if_neg (by push_neg; exact ⟨hrows, hg⟩)]
  have hfind : numeric_cols.find? (fun c => decide (c ∉ df.columns)) = none := by
    rw [List.find?_eq_none]
    intro c hc
    simp only [decide_eq_true_eq, Decidable.not_not]
    have hc' : c = "accuracy" ∨ c = "precision" ∨ c = "recall" ∨ c = "f1" := by
      simpa [numeric_cols] using hc
    rcases hc' with rfl | rfl | rfl | rfl
    · exact h1
    · exact h2
    · exact h3
    · exact h4
  rw [hfind]

/-- C1 (amended): provided the detailed table is non-empty and, besides
`group_id` and `f1`, also contains the `accuracy`, `precision` and `recall`
columns that `summarize_best_worst` unconditionally coerces, the output has
exactly one record per group with at least one non-missing f1 after coercion
(groups whose f1 values are all missing, and NaN group keys, are excluded);
each record's `best_` fields are the first input row attaining the group's
maximal f1, its `worst_` fields the first row attaining the minimal f1, and
a single-row group yields `best = worst =` that row, so
`best_f1 = worst_f1 =` that row's f1. -/
theorem summarize_best_worst_records (df : MetricTable)
    (hg : "group_id" ∈ df.columns) (h1 : "accuracy" ∈ df.columns)
    (h2 : "precision" ∈ df.columns) (h3 : "recall" ∈ df.columns)
    (h4 : "f1" ∈ df.columns) (hrows : df.rows ≠ []) :
    ∃ recs : List BWRecord, summarize_best_worst df = .ok (some recs)
      ∧ (∀ g : Value, g ∈ recs.map BWRecord.group_id ↔
          (g ≠ Value.na ∧ ∃ i, i < (coerceNumeric df).rows.length
            ∧ rowGroup (coerceNumeric df) i = g
            ∧ f1Num (coerceNumeric df) i ≠ none))
      ∧ (recs.map BWRecord.group_id).Nodup
      ∧ (∀ r ∈ recs, ∃ i q, IsFirstMax (coerceNumeric df) r.group_id i q
          ∧ r.best = (coerceNumeric df).rows.getD i [])
      ∧ (∀ r ∈ recs, ∃ i q, IsFirstMin (coerceNumeric df) r.group_id i q
          ∧ r.worst = (coerceNumeric df).rows.getD i [])
      ∧ (∀ r ∈ recs, ∀ i, groupRowIdxs (coerceNumeric df) r.group_id = [i] →
          r.best = r.worst ∧ r.best = (coerceNumeric df).rows.getD i []) := by
  set cf := coerceNumeric df with hcf
  refine ⟨_, summarize_ok df hg h1 h2 h3 h4 hrows, ?_, ?_, ?_, ?_, ?_⟩
  · intro g
    rw [map_groupid_filterMap, List.mem_filter]
    constructor
    · rintro ⟨hmem, hsome⟩
      obtain ⟨hne, i, hi, hgi⟩ := (mem_groupKeysOf cf g).mp hmem
      have hpairs := (bwRecordFor_isSome_iff cf g).mp hsome
      obtain ⟨x, hx⟩ := List.exists_mem_of_ne_nil _ hpairs
      obtain ⟨hgidx, hf⟩ := (mem_f1Pairs cf g x.1 x.2).mp (by rw [Prod.mk.eta]; exact hx)
      obtain ⟨hlt, hgrp⟩ := (mem_groupRowIdxs cf g x.1).mp hgidx
      exact ⟨hne, x.1, hlt, hgrp, by rw [hf]; exact fun h => Option.noConfusion h⟩
    · rintro ⟨hne, i, hi, hgi, hf⟩
      refine ⟨(mem_groupKeysOf cf g).mpr ⟨hne, i, hi, hgi⟩, ?_⟩
      rw [bwRecordFor_isSome_iff]
      intro hnil
      rw [f1Pairs_eq_nil_iff] at hnil
      exact hf (hnil i ((mem_groupRowIdxs cf g i).mpr ⟨hi, hgi⟩))
  · rw [map_groupid_filterMap]
    exact (dedupFirst_nodup _).filter _
  · intro r hr
    obtain ⟨g, hgmem, hb⟩ := List.mem_filterMap.mp hr
    obtain ⟨hgid, bi, wi, hmax, hmin, hbest, hworst⟩ := bwRecordFor_eq_some cf g r hb
    obtain ⟨q, hq⟩ := idxmaxF1_isFirstMax cf g bi hmax
    exact ⟨bi, q, hgid ▸ hq, hbest⟩
  · intro r hr
    obtain ⟨g, hgmem, hb⟩ := List.mem_filterMap.mp hr
    obtain ⟨hgid, bi, wi, hmax, hmin, hbest, hworst⟩ := bwRecordFor_eq_some cf g r hb
    obtain ⟨q, hq⟩ := idxminF1_isFirstMin cf g wi hmin
    exact ⟨wi, q, hgid ▸ hq, hworst⟩
  · intro r hr i hsing
    obtain ⟨g, hgmem, hb⟩ := List.mem_filterMap.mp hr
    obtain ⟨hgid, bi, wi, hmax, hmin, hbest, hworst⟩ := bwRecordFor_eq_some cf g r hb
    rw [hgid] at hsing
    have hpairs : f1Pairs cf g
        = ([i] : List Nat).filterMap (fun j => (f1Num cf j).map (fun q => (j, q))) := by
      rw [f1Pairs, hsing]
    cases hf : f1Num cf i with
    | none =>
      have hnil : f1Pairs cf g = [] := by
        rw [hpairs, List.filterMap_cons, hf]
        rfl
      have := (idxmaxF1_eq_none_iff cf g).mpr hnil
      rw [hmax] at this
      exact Option.noConfusion this
    | some q =>
      have hpq : f1Pairs cf g = [(i, q)] := by
        rw [hpairs, List.filterMap_cons, hf]
        rfl
      have hmax' : idxmaxF1 cf g = some i := by
        unfold idxmaxF1
        rw [hpq]
        rfl
      have hmin' : idxminF1 cf g = some i := by
        unfold idxminF1
        rw [hpq]
        rfl
      rw [hmax] at hmax'
      rw [hmin] at hmin'
      obtain rfl := (Option.some.injEq _ _).mp hmax'
      obtain rfl := (Option.some.injEq _ _).mp hmin'
      exact ⟨by rw [hbest, hworst], hbest⟩

/-- C1 witness: the amended theorem applied to the spec's scenario table
(groups A with f1 9 and 3, B with f1 5). -/
theorem summarize_best_worst_records_witness :
    ∃ recs : List BWRecord,
      summarize_best_worst
        ⟨["group_id", "accuracy", "precision", "recall", "f1"],
         [[.str "A", .num 1, .num 1, .num 1, .num 9],
          [.str "A", .num 1, .num 1, .num 1, .num 3],
          [.str "B", .num 1, .num 1, .num 1, .num 5]]⟩ = .ok (some recs)
      ∧ (recs.map BWRecord.group_id).Nodup := by
  obtain ⟨recs, hok, _, hnd, _⟩ := summarize_best_worst_records
    ⟨["group_id", "accuracy", "precision", "recall", "f1"],
     [[.str "A", .num 1, .num 1, .num 1, .num 9],
      [.str "A", .num 1, .num 1, .num 1, .num 3],
      [.str "B", .num 1, .num 1, .num 1, .num 5]]⟩
    (by decide) (by decide) (by decide) (by decide) (by decide) (by decide)
  exact ⟨recs, hok, hnd⟩

/-- C8 witness: the amended prompt theorem applied to a CSV whose prompt
cell is missing (NaN). -/
theorem standardise_prompt_amended_witness :
    ∃ out : CanonCsv,
      standardise_model_csv ["d"] true ⟨["prompt", "step1"], [[none, some "a.png"]]⟩
        = .ok (out, 1) := by
  obtain ⟨out, hok, _⟩ := standardise_prompt_amended ["d"]
    ⟨["prompt", "step1"], [[none, some "a.png"]]⟩ "prompt" 1
    (by decide) (by decide) (by decide)
  exact ⟨out, hok⟩
